import Mathlib

/-!
# Heap-Assignment: the `malloc.c` allocator

A shallow embedding of `src/malloc.c` (a replacement for `malloc`, `free`,
`realloc` and `calloc` on top of `sbrk`) and theorems about it.

Representation.

* The block chain rooted at `heapList` is the list of its headers in `next`
  order.  Every header records the address it lives at, so that the pointer
  arithmetic of `BLOCK_DATA`, `BLOCK_HEADER` and of the split can be followed.
  The field `prev` of `struct _block` is never read or written by the code and
  is left out.
* A pointer to a block of the chain (`curr`, `last`, `next` in the C code) is
  the position of that block in the chain; `NULL` is `none`.  A pointer that
  a caller holds is the address of a payload; `BLOCK_HEADER` finds its header
  by address.
* The contents of payloads are not part of the state: no function of the
  source reads them.
* `size_t` values are natural numbers below `2 ^ w`; every `size_t` operation
  is reduced modulo `2 ^ w`.  `int` is 32 bits wide.
* `assert` is enabled (no `NDEBUG`): a failed assertion ends the run with
  `Fault.assertFailed`.
* The list shows what memory holds as long as the headers of the chain occupy
  pairwise disjoint bytes (`HeadersApart`) of mapped memory.  The split in
  `malloc` leaves the `size` of the selected block as it was, so that a later
  split or growth can put a header on bytes of a header that is already
  linked; the stores into the new header then change fields of that header as
  well, which a list of separate elements does not show.  The general
  theorems on `free` that depend on it assume `HeadersApart`, and the theorems
  on the calls that put a header on a linked one follow the run up to that
  call and then give the addresses and the bytes of the stores.
-/

namespace HeapAssignment

/-! ## Target ABI -/

/-- The two ABI constants the source depends on: the bit width `w` of `size_t`
(at least the width of `int`) and `hdr = sizeof(struct _block)`. -/
structure Arch where
  w : Nat
  hdr : Nat
deriving DecidableEq

/-- LP64: 64-bit `size_t` and pointers, `sizeof(struct _block) = 32`. -/
def lp64 : Arch := ⟨64, 32⟩

/-- ILP32: 32-bit `size_t` and pointers, `sizeof(struct _block) = 16`. -/
def ilp32 : Arch := ⟨32, 16⟩

/-- Number of values of `size_t`. -/
def Arch.modulus (a : Arch) : Nat := 2 ^ a.w

/-- Value of a `size_t` after conversion to the signed type of the same width
(`intptr_t`, the parameter type of `sbrk`). -/
def toSigned (a : Arch) (x : Nat) : Int :=
  if x < 2 ^ (a.w - 1) then (x : Int) else (x : Int) - (a.modulus : Int)

/-- Conversion of an integer value to `int` (32 bits, two's complement). -/
def toInt32 (x : Int) : Int := (x + 2 ^ 31) % 2 ^ 32 - 2 ^ 31

/-- `INT_MAX` from `limits.h`. -/
def INT_MAX : Int := 2 ^ 31 - 1

/-- `INT_MIN` from `limits.h`. -/
def INT_MIN : Int := -(2 ^ 31)

/-- Conversion of an `int` value to `size_t`. -/
def toSizeT (a : Arch) (x : Int) : Nat := (x % (a.modulus : Int)).toNat

/-- `c += s` for an `int` counter `c` and a `size_t` value `s`: the sum is
formed in `size_t` and converted back to `int`. -/
def addSize (a : Arch) (c : Int) (s : Nat) : Int :=
  toInt32 (((toSizeT a c + s) % a.modulus : Nat) : Int)

/-- The macro `ALIGN4(s) = (((((s) - 1) >> 2) << 2) + 4)` on a `size_t`. -/
def ALIGN4 (a : Arch) (s : Nat) : Nat :=
  (((((s + a.modulus - 1) % a.modulus) >>> 2) <<< 2) % a.modulus + 4) % a.modulus

/-! ## Data model -/

/-- A header of the chain (`struct _block`) together with its address. -/
structure Block where
  addr : Nat
  size : Nat
  free : Bool
deriving DecidableEq

/-- The macro `BLOCK_DATA(b) = b + 1`: the address right after the header. -/
def BLOCK_DATA (a : Arch) (b : Block) : Nat := b.addr + a.hdr

/-- How a run ends when it does not return. -/
inductive Fault where
  /-- An `assert` failed and the process aborted. -/
  | assertFailed
  /-- The code went through a pointer that is no block of the chain, stored
  through `NULL`, or stored over a header or past the break: what happens then
  is not determined by the chain. -/
  | undefined
deriving DecidableEq

/-- The globals of `malloc.c` (the chain rooted at `heapList`, and the counters),
together with the program break `brk` and the bounds `brkMin`, `brkMax`
between which the operating system lets the break move. -/
structure Heap where
  heapList : List Block
  brk : Nat
  brkMin : Nat
  brkMax : Nat
  atexit_registered : Bool
  num_mallocs : Int
  num_frees : Int
  num_reuses : Int
  num_grows : Int
  num_splits : Int
  num_coalesces : Int
  num_blocks : Int
  num_requested : Int
  max_heap : Int
deriving DecidableEq

/-- The state before the first call: no block, all counters zero, the break at
`base` and allowed to move up to `limit`. -/
def Heap.empty (base limit : Nat) : Heap :=
  { heapList := [], brk := base, brkMin := base, brkMax := limit,
    atexit_registered := false,
    num_mallocs := 0, num_frees := 0, num_reuses := 0, num_grows := 0,
    num_splits := 0, num_coalesces := 0, num_blocks := 0, num_requested := 0,
    max_heap := 0 }

/-- The build flag that selects the scan of `findFreeBlock`
(`-DFIT=0`, `-DBEST=0`, `-DWORST=0`, `-DNEXT=0`). -/
inductive Fit where
  | first
  | best
  | worst
  | next
deriving DecidableEq

/-! ## The operating system: `sbrk` -/

/-- The call `sbrk(incr)` of `unistd.h`: moves the break by `incr` bytes and
returns the previous break; when the new break would leave
`[brkMin, brkMax]` nothing moves and `(void *) -1` is returned.  `sbrk(0)`
returns the current break. -/
def sbrk (a : Arch) (h : Heap) (incr : Int) : Nat × Heap :=
  if incr = 0 then (h.brk, h)
  else if (h.brkMin : Int) ≤ (h.brk : Int) + incr ∧
      (h.brk : Int) + incr ≤ (h.brkMax : Int) then
    (h.brk, { h with brk := ((h.brk : Int) + incr).toNat })
  else (a.modulus - 1, h)

/-! ## `findFreeBlock` -/

/-- The loop of the first-fit scan (also the second loop of the next-fit
scan), entered with `curr` the block at position `i` whose remaining chain is
the list argument.  Returns `curr` and `*last`. -/
def firstFitLoop (size : Nat) : List Block → Nat → Option Nat → Option Nat × Option Nat
  | [], _, last => (none, last)
  | b :: rest, i, last =>
    if b.free && decide (size ≤ b.size) then (some i, last)
    else firstFitLoop size rest (i + 1) (some i)

/-- The loop of the best-fit scan with its locals `diff` and `b_block`;
returns the value of `curr` after `if (b_block) curr = b_block;` and `*last`. -/
def bestFitLoop (a : Arch) (size : Nat) :
    List Block → Nat → Option Nat → Nat → Option Nat → Option Nat × Option Nat
  | [], _, last, _, b_block => (b_block, last)
  | b :: rest, i, _, diff, b_block =>
    if b.free && decide (size < b.size) then
      if (b.size + a.modulus - size) % a.modulus < diff then
        bestFitLoop a size rest (i + 1) (some i) ((b.size + a.modulus - size) % a.modulus) (some i)
      else bestFitLoop a size rest (i + 1) (some i) diff b_block
    else bestFitLoop a size rest (i + 1) (some i) diff b_block

/-- The loop of the worst-fit scan with its locals `diff` and `w_block`;
`new_diff >= 0` always holds for the unsigned `new_diff`. -/
def worstFitLoop (a : Arch) (size : Nat) :
    List Block → Nat → Option Nat → Nat → Option Nat → Option Nat × Option Nat
  | [], _, last, _, w_block => (w_block, last)
  | b :: rest, i, _, diff, w_block =>
    if b.free && decide (size ≤ b.size) then
      if (b.size + a.modulus - size) % a.modulus > diff then
        worstFitLoop a size rest (i + 1) (some i) ((b.size + a.modulus - size) % a.modulus) (some i)
      else worstFitLoop a size rest (i + 1) (some i) diff w_block
    else worstFitLoop a size rest (i + 1) (some i) diff w_block

/-- The function `findFreeBlock(&last, size)` on the chain `chain`, with the
value of `*last` on entry; returns the block found (or `NULL`) and `*last`. -/
def findFreeBlock (a : Arch) (fit : Fit) (chain : List Block) (last : Option Nat)
    (size : Nat) : Option Nat × Option Nat :=
  match fit with
  | .first => firstFitLoop size chain 0 last
  | .best => bestFitLoop a size chain 0 last (toSizeT a INT_MAX) none
  | .worst => worstFitLoop a size chain 0 last (toSizeT a INT_MIN) none
  | .next =>
    match last with
    | some i => firstFitLoop size (chain.drop (i + 1)) (i + 1) last
    | none => firstFitLoop size chain 0 last

/-! ## `growHeap` -/

/-- The function `growHeap(last, size)`.  Returns the address of the new block
(or `NULL`).  The new header is linked behind `last`, which cuts the chain
there; with `last == NULL` it becomes the head when `heapList` was `NULL` and
stays unlinked otherwise.  The new header is one more element of the list:
that is what memory holds when its bytes, which begin at the old break, are
bytes of no header of the chain. -/
def growHeap (a : Arch) (h : Heap) (last : Option Nat) (size : Nat) :
    Except Fault (Option Nat × Heap) :=
  let curr := (sbrk a h 0).1
  let r := sbrk a h (toSigned a ((a.hdr + size) % a.modulus))
  if curr ≠ r.1 then .error .assertFailed
  else if curr = a.modulus - 1 then .ok (none, r.2)
  else
    let blk : Block := { addr := curr, size := size, free := false }
    let chain :=
      match last with
      | some i => r.2.heapList.take (i + 1) ++ [blk]
      | none => if r.2.heapList.isEmpty then [blk] else r.2.heapList
    .ok (some curr, { r.2 with heapList := chain })

/-! ## `malloc` -/

/-- The block that the split in `malloc` writes behind the first `size` bytes
of the payload of `b`. -/
def splitBlock (a : Arch) (b : Block) (size : Nat) : Block :=
  { addr := b.addr + size + a.hdr,
    size := toSizeT a (toInt32 (b.size : Int) - (size : Int) - (a.hdr : Int)),
    free := true }

/-- The function `malloc(size)`.  Returns the pointer handed to the caller
(`none` for `NULL`) and the new state.  The split puts `splitBlock` into the
list as one more element: that is what memory holds after the stores of the
split when the bytes of the new header are mapped and are bytes of no header
of the chain. -/
def malloc (a : Arch) (fit : Fit) (h : Heap) (size : Nat) :
    Except Fault (Option Nat × Heap) :=
  let h0 : Heap :=
    { h with num_mallocs := h.num_mallocs + 1,
             num_requested := addSize a h.num_requested size,
             atexit_registered := true }
  let size := ALIGN4 a size
  if size = 0 then .ok (none, h0)
  else
    let last : Option Nat := if h0.heapList.isEmpty then none else some 0
    match findFreeBlock a fit h0.heapList last size with
    | (some i, _) =>
      match h0.heapList[i]? with
      | none => .error .undefined
      | some b =>
        let h1 : Heap :=
          if (b.size + a.modulus - size) % a.modulus > a.hdr then
            { h0 with num_splits := h0.num_splits + 1,
                      num_blocks := h0.num_blocks + 1,
                      heapList := h0.heapList.take (i + 1) ++
                        splitBlock a b size :: h0.heapList.drop (i + 1) }
          else h0
        .ok (some (BLOCK_DATA a b),
             { h1 with num_reuses := h1.num_reuses + 1,
                       heapList := h1.heapList.modify (fun c => { c with free := false }) i })
    | (none, last) =>
      match growHeap a h0 last size with
      | .error e => .error e
      | .ok (next, h1) =>
        let h2 : Heap :=
          { h1 with num_grows := h1.num_grows + 1,
                    num_blocks := h1.num_blocks + 1,
                    max_heap := addSize a h1.max_heap size }
        match next with
        | none => .ok (none, h2)
        | some p => .ok (some (p + a.hdr), { h2 with num_reuses := h2.num_reuses + 1 })

/-! ## `free` -/

/-- The chain cut at `BLOCK_HEADER(ptr)`: the blocks before the header that
lies `hdr` bytes below `ptr`, that header, and the blocks after it. -/
def locate (a : Arch) (ptr : Nat) : List Block → Option (List Block × Block × List Block)
  | [] => none
  | b :: rest =>
    if b.addr + a.hdr = ptr then some ([], b, rest)
    else
      match locate a ptr rest with
      | none => none
      | some (pre, c, post) => some (b :: pre, c, post)

/-- The `while (curr && curr->next)` loop of `free` on the chain from `curr`
on; returns that part of the chain after the loop and the number of merges. -/
def coalesceLoop (a : Arch) : List Block → List Block × Nat
  | [] => ([], 0)
  | [b] => ([b], 0)
  | b :: n :: rest =>
    if b.free && n.free then
      let r := coalesceLoop a rest
      ({ b with size := (b.size + n.size + a.hdr) % a.modulus } :: r.1, r.2 + 1)
    else
      let r := coalesceLoop a (n :: rest)
      (b :: r.1, r.2)

/-- The function `free(ptr)`.  Each store changes one element of the list:
that is what memory holds on a chain whose headers occupy pairwise disjoint
bytes. -/
def free (a : Arch) (h : Heap) (ptr : Option Nat) : Except Fault Heap :=
  match ptr with
  | none => .ok h
  | some p =>
    match locate a p h.heapList with
    | none => .error .undefined
    | some (pre, b, post) =>
      if b.free then .error .assertFailed
      else
        let r := coalesceLoop a ({ b with free := true } :: post)
        .ok { h with heapList := pre ++ r.1,
                     num_frees := h.num_frees + 1,
                     num_coalesces := h.num_coalesces + (r.2 : Int),
                     num_blocks := h.num_blocks - (r.2 : Int) }

/-! ## `realloc` and `calloc` -/

/-- Whether a store of `n` bytes at address `p` stays inside the mapped region
and off every header of the chain, so that it leaves the chain as it is. -/
def storeOk (a : Arch) (h : Heap) (p n : Nat) : Bool :=
  decide (h.brkMin ≤ p ∧ p + n ≤ h.brk) &&
    h.heapList.all (fun b => decide (p + n ≤ b.addr ∨ b.addr + a.hdr ≤ p))

/-- The function `realloc(ptr, size)`: `malloc(size)`, then
`memcpy(ptr, n_ptr, size)`, then `return n_ptr`.  The contents of payloads are
not part of the state; a copy of zero bytes does nothing. -/
def realloc (a : Arch) (fit : Fit) (h : Heap) (ptr : Option Nat) (size : Nat) :
    Except Fault (Option Nat × Heap) :=
  match malloc a fit h size with
  | .error e => .error e
  | .ok (n_ptr, h1) =>
    if size = 0 then .ok (n_ptr, h1)
    else
      match ptr, n_ptr with
      | some p, some _ => if storeOk a h1 p size then .ok (n_ptr, h1) else .error .undefined
      | _, _ => .error .undefined

/-- The function `calloc(nmemb, size)`: `malloc(nmemb * size)`, then
`memset(ptr, 0, nmemb * size)`, then `return ptr`; the product is formed in
`size_t`. -/
def calloc (a : Arch) (fit : Fit) (h : Heap) (nmemb size : Nat) :
    Except Fault (Option Nat × Heap) :=
  match malloc a fit h ((nmemb * size) % a.modulus) with
  | .error e => .error e
  | .ok (ptr, h1) =>
    if (nmemb * size) % a.modulus = 0 then .ok (ptr, h1)
    else
      match ptr with
      | some p =>
        if storeOk a h1 p ((nmemb * size) % a.modulus) then .ok (ptr, h1) else .error .undefined
      | none => .error .undefined

/-! ## Clients -/

/-- One call of a client into the allocator. -/
inductive Call where
  | malloc (size : Nat)
  | free (ptr : Option Nat)
  | realloc (ptr : Option Nat) (size : Nat)
  | calloc (nmemb size : Nat)
deriving DecidableEq

/-- The effect of one call: the pointer it returns (`none` for `NULL` and for
the `void` function `free`) and the new state. -/
def call (a : Arch) (fit : Fit) (h : Heap) : Call → Except Fault (Option Nat × Heap)
  | .malloc size => malloc a fit h size
  | .free ptr =>
    match free a h ptr with
    | .error e => .error e
    | .ok h1 => .ok (none, h1)
  | .realloc ptr size => realloc a fit h ptr size
  | .calloc nmemb size => calloc a fit h nmemb size

/-- A sequence of calls, one after the other; returns the pointers returned by
the calls, in order, and the last state. -/
def run (a : Arch) (fit : Fit) (h : Heap) : List Call → Except Fault (List (Option Nat) × Heap)
  | [] => .ok ([], h)
  | c :: cs =>
    match call a fit h c with
    | .error e => .error e
    | .ok (p, h1) =>
      match run a fit h1 cs with
      | .error e => .error e
      | .ok (ps, h2) => .ok (p :: ps, h2)

/-- What a run shows: the returned pointers and the chain it leaves, `none`
when the run ended in a fault. -/
def observe (r : Except Fault (List (Option Nat) × Heap)) :
    Option (List (Option Nat) × List Block) :=
  match r with
  | .error _ => none
  | .ok (ps, h) => some (ps, h.heapList)

/-! ## Predicates used in the statements -/

/-- The block is free and its payload holds `size` bytes. -/
def Block.fits (size : Nat) (b : Block) : Prop := b.free = true ∧ size ≤ b.size

/-- The payload `[data, data + size)` of `b` lies apart from the header and
the payload of `c`. -/
def Block.payloadApart (a : Arch) (b c : Block) : Prop :=
  b.addr + a.hdr + b.size ≤ c.addr ∨ c.addr + a.hdr + c.size ≤ b.addr + a.hdr

instance (a : Arch) (b c : Block) : Decidable (Block.payloadApart a b c) := by
  unfold Block.payloadApart; infer_instance

/-- No two neighbouring blocks of the list are both free. -/
def NoFreePair : List Block → Prop
  | [] => True
  | [_] => True
  | b :: n :: rest => ¬ (b.free = true ∧ n.free = true) ∧ NoFreePair (n :: rest)

/-- The headers of the blocks of the list occupy pairwise disjoint bytes. -/
def HeadersApart (a : Arch) (l : List Block) : Prop :=
  l.Pairwise (fun b c => b.addr + a.hdr ≤ c.addr ∨ c.addr + a.hdr ≤ b.addr)

instance (a : Arch) (l : List Block) : Decidable (HeadersApart a l) := by
  unfold HeadersApart; infer_instance

/-- Offset of the field `next` in `struct _block`: it stands behind `size` and
`prev`, each `w / 8` bytes wide (pointers are as wide as `size_t`). -/
def nextOffset (a : Arch) : Nat := 2 * (a.w / 8)

/-- Offset of the one-byte field `free` in `struct _block`: it stands behind
`size`, `prev` and `next`. -/
def freeOffset (a : Arch) : Nat := 3 * (a.w / 8)

/-- The value of a field that held `v`, least significant byte first, after a
store of the byte `x` over its byte number `k`. -/
def storeByte (v k x : Nat) : Nat := v - v / 256 ^ k % 256 * 256 ^ k + x * 256 ^ k

/-- A state with five blocks: three in use, then one in use, then a free one. -/
def fiveBlocks : Heap :=
  { Heap.empty 4096 1048576 with
    heapList := [⟨4096, 8, false⟩, ⟨4136, 8, false⟩, ⟨4176, 16, false⟩,
      ⟨4224, 8, false⟩, ⟨4264, 8, true⟩],
    brk := 4304 }

/-! ## Arithmetic of `size_t` -/

theorem modulus_pos (a : Arch) : 0 < a.modulus := Nat.pos_pow_of_pos _ (by decide)

theorem modulus_ge (a : Arch) (hw : 32 ≤ a.w) : 2 ^ 32 ≤ a.modulus :=
  Nat.pow_le_pow_right (by decide) hw

theorem half_ge (a : Arch) (hw : 32 ≤ a.w) : 2 ^ 31 ≤ 2 ^ (a.w - 1) :=
  Nat.pow_le_pow_right (by decide) (by omega)

theorem modulus_dvd4 (a : Arch) (hw : 2 ≤ a.w) : a.modulus % 4 = 0 := by
  obtain ⟨k, hk⟩ : ∃ k, a.w = k + 2 := ⟨a.w - 2, by omega⟩
  have : a.modulus = 2 ^ k * 4 := by simp [Arch.modulus, hk, Nat.pow_add]
  omega

theorem shift_round (x : Nat) : (x >>> 2) <<< 2 = x / 4 * 4 := by
  simp [Nat.shiftRight_eq_div_pow, Nat.shiftLeft_eq]

theorem ALIGN4_zero (a : Arch) : ALIGN4 a 0 = 0 := by
  have hpos := modulus_pos a
  unfold ALIGN4
  rw [shift_round]
  rcases Nat.lt_or_ge a.w 2 with hw | hw
  · have : a.w = 0 ∨ a.w = 1 := by omega
    rcases this with h | h <;> simp [Arch.modulus, h]
  · have h4 := modulus_dvd4 a hw
    have h1 : (0 + a.modulus - 1) % a.modulus = a.modulus - 1 := by
      rw [Nat.zero_add]; exact Nat.mod_eq_of_lt (by omega)
    rw [h1]
    have h2 : (a.modulus - 1) / 4 * 4 = a.modulus - 4 := by omega
    rw [h2, Nat.mod_eq_of_lt (by omega : a.modulus - 4 < a.modulus)]
    have h3 : a.modulus - 4 + 4 = a.modulus := by omega
    rw [h3, Nat.mod_self]

theorem ALIGN4_eq (a : Arch) (s : Nat) (h1 : 1 ≤ s) (h2 : s + 4 ≤ a.modulus) :
    ALIGN4 a s = (s - 1) / 4 * 4 + 4 := by
  unfold ALIGN4
  rw [shift_round]
  have e1 : (s + a.modulus - 1) % a.modulus = s - 1 := by
    have : s + a.modulus - 1 = (s - 1) + a.modulus := by omega
    rw [this, Nat.add_mod_right, Nat.mod_eq_of_lt (by omega)]
  rw [e1]
  have e2 : (s - 1) / 4 * 4 ≤ s - 1 := Nat.div_mul_le_self _ _
  have e3 : ((s - 1) / 4 * 4) % a.modulus = (s - 1) / 4 * 4 := Nat.mod_eq_of_lt (by omega)
  rw [e3]
  exact Nat.mod_eq_of_lt (by omega)

theorem toSigned_small (a : Arch) (hw : 32 ≤ a.w) (x : Nat) (hx : x < 2 ^ 31) :
    toSigned a (x % a.modulus) = (x : Int) := by
  have h1 := modulus_ge a hw
  have h2 := half_ge a hw
  have e : x % a.modulus = x := Nat.mod_eq_of_lt (by omega)
  simp only [toSigned, e]
  rw [if_pos (by omega)]

/-! ## One step of each function, in closed form -/

/-- A growth that the operating system grants puts the new header at the old
break and moves the break past its payload. -/
theorem growHeap_ok (a : Arch) (hw : 32 ≤ a.w) (h : Heap) (last : Option Nat) (size : Nat)
    (hsz : a.hdr + size < 2 ^ 31) (hpos : 0 < a.hdr + size)
    (hmin : h.brkMin ≤ h.brk) (hmax : h.brk + a.hdr + size ≤ h.brkMax)
    (hlim : h.brkMax < a.modulus - 1) :
    growHeap a h last size =
      .ok (some h.brk,
        { h with brk := h.brk + a.hdr + size,
                 heapList :=
                   match last with
                   | some i => h.heapList.take (i + 1) ++ [⟨h.brk, size, false⟩]
                   | none =>
                     if h.heapList.isEmpty then [⟨h.brk, size, false⟩] else h.heapList }) := by
  have hs := toSigned_small a hw (a.hdr + size) hsz
  have hne : ((a.hdr : Int) + (size : Int)) ≠ 0 := by omega
  have hin : (h.brkMin : Int) ≤ (h.brk : Int) + ((a.hdr : Int) + (size : Int)) ∧
      (h.brk : Int) + ((a.hdr : Int) + (size : Int)) ≤ (h.brkMax : Int) := by omega
  have hbrk : ¬ h.brk = a.modulus - 1 := by omega
  have hto : ((h.brk : Int) + ((a.hdr : Int) + (size : Int))).toNat = h.brk + a.hdr + size := by
    omega
  unfold growHeap
  simp only [hs, sbrk, Nat.cast_add, hne, hin, hbrk, hto, if_true, if_false, and_self, ne_eq,
    not_true_eq_false, ite_true, ite_false, reduceIte, not_false_eq_true]

/-- The call `malloc(n)` when the scan finds nothing and the growth is granted. -/
theorem malloc_grow (a : Arch) (hw : 32 ≤ a.w) (fit : Fit) (h : Heap) (n s : Nat)
    (last : Option Nat) (hs : ALIGN4 a n = s) (hs0 : s ≠ 0)
    (hfind : findFreeBlock a fit h.heapList (if h.heapList.isEmpty then none else some 0) s
      = (none, last))
    (hsz : a.hdr + s < 2 ^ 31)
    (hmin : h.brkMin ≤ h.brk) (hmax : h.brk + a.hdr + s ≤ h.brkMax)
    (hlim : h.brkMax < a.modulus - 1) :
    malloc a fit h n =
      .ok (some (h.brk + a.hdr),
        { h with atexit_registered := true,
                 num_mallocs := h.num_mallocs + 1,
                 num_requested := addSize a h.num_requested n,
                 brk := h.brk + a.hdr + s,
                 heapList :=
                   match last with
                   | some i => h.heapList.take (i + 1) ++ [⟨h.brk, s, false⟩]
                   | none => if h.heapList.isEmpty then [⟨h.brk, s, false⟩] else h.heapList,
                 num_grows := h.num_grows + 1,
                 num_blocks := h.num_blocks + 1,
                 max_heap := addSize a h.max_heap s,
                 num_reuses := h.num_reuses + 1 }) := by
  unfold malloc
  simp only [hs, hs0, if_false, hfind]
  rw [growHeap_ok a hw _ last s hsz (by omega) (by exact hmin) (by exact hmax) (by exact hlim)]

/-- The call `malloc(n)` when the scan finds the block `b` at position `i`. -/
theorem malloc_found (a : Arch) (fit : Fit) (h : Heap) (n s i : Nat)
    (last : Option Nat) (b : Block) (hs : ALIGN4 a n = s) (hs0 : s ≠ 0)
    (hfind : findFreeBlock a fit h.heapList (if h.heapList.isEmpty then none else some 0) s
      = (some i, last))
    (hb : h.heapList[i]? = some b) :
    malloc a fit h n =
      .ok (some (b.addr + a.hdr),
        if (b.size + a.modulus - s) % a.modulus > a.hdr then
          { h with atexit_registered := true,
                   num_mallocs := h.num_mallocs + 1,
                   num_requested := addSize a h.num_requested n,
                   num_splits := h.num_splits + 1,
                   num_blocks := h.num_blocks + 1,
                   num_reuses := h.num_reuses + 1,
                   heapList :=
                     (h.heapList.take (i + 1) ++
                       splitBlock a b s :: h.heapList.drop (i + 1)).modify
                     (fun c => { c with free := false }) i }
        else
          { h with atexit_registered := true,
                   num_mallocs := h.num_mallocs + 1,
                   num_requested := addSize a h.num_requested n,
                   num_reuses := h.num_reuses + 1,
                   heapList := h.heapList.modify (fun c => { c with free := false }) i }) := by
  unfold malloc
  simp only [hs, hs0, if_false, hfind, hb, BLOCK_DATA]
  split <;> rfl

/-- The call `malloc(0)`: the aligned size is zero and the function returns
before it looks at the chain. -/
theorem malloc_zero (a : Arch) (fit : Fit) (h : Heap) :
    malloc a fit h 0 =
      .ok (none, { h with num_mallocs := h.num_mallocs + 1,
                          num_requested := addSize a h.num_requested 0,
                          atexit_registered := true }) := by
  simp [malloc, ALIGN4_zero]

/-- The call `free(p)` on the data pointer of a block in use. -/
theorem free_ok (a : Arch) (h : Heap) (p : Nat) (pre post : List Block) (b : Block)
    (hl : locate a p h.heapList = some (pre, b, post)) (hb : b.free = false) :
    free a h (some p) =
      .ok { h with heapList := pre ++ (coalesceLoop a ({ b with free := true } :: post)).1,
                   num_frees := h.num_frees + 1,
                   num_coalesces := h.num_coalesces
                     + ((coalesceLoop a ({ b with free := true } :: post)).2 : Int),
                   num_blocks := h.num_blocks
                     - ((coalesceLoop a ({ b with free := true } :: post)).2 : Int) } := by
  simp [free, hl, hb]

theorem locate_append (a : Arch) (pre post : List Block) (b : Block)
    (hpre : ∀ c ∈ pre, c.addr ≠ b.addr) :
    locate a (b.addr + a.hdr) (pre ++ b :: post) = some (pre, b, post) := by
  induction pre with
  | nil => simp [locate]
  | cons c pre ih =>
    have hc : ¬ c.addr + a.hdr = b.addr + a.hdr := by
      have := hpre c (by simp)
      omega
    have ih2 := ih (fun d hd => hpre d (by simp [hd]))
    simp [locate, hc, ih2]

theorem coalesceLoop_used_next (a : Arch) (b : Block) (post : List Block)
    (hsucc : ∀ c, post.head? = some c → c.free = false) :
    coalesceLoop a (b :: post) = (b :: (coalesceLoop a post).1, (coalesceLoop a post).2) := by
  cases post with
  | nil => simp [coalesceLoop]
  | cons c rest =>
    have hc : c.free = false := hsucc c rfl
    simp [coalesceLoop, hc]

theorem coalesceLoop_noFreePair (a : Arch) (l : List Block) (hl : NoFreePair l) :
    coalesceLoop a l = (l, 0) := by
  induction l with
  | nil => simp [coalesceLoop]
  | cons b rest ih =>
    cases rest with
    | nil => simp [coalesceLoop]
    | cons n rest =>
      obtain ⟨h1, h2⟩ := hl
      have hc : (b.free && n.free) = false := by
        cases hb : b.free <;> cases hn : n.free <;> simp_all
      simp [coalesceLoop, hc, ih h2]

/-! ## The first-fit loop -/

theorem firstFitLoop_none (size : Nat) (l : List Block) (k : Nat) (last : Option Nat) :
    (firstFitLoop size l k last).1 = none ↔ ∀ b ∈ l, ¬ b.fits size := by
  induction l generalizing k last with
  | nil => simp [firstFitLoop]
  | cons b rest ih =>
    by_cases hb : b.fits size
    · have hb2 := hb
      unfold Block.fits at hb2
      simp [firstFitLoop, hb2.1, hb2.2, hb]
    · have hc : (b.free && decide (size ≤ b.size)) = false := by
        unfold Block.fits at hb
        cases hf : b.free <;> simp_all
      simp [firstFitLoop, hc, ih, hb]

theorem firstFitLoop_some (size : Nat) (l : List Block) (k : Nat) (last : Option Nat) (i : Nat) :
    (firstFitLoop size l k last).1 = some i ↔
      k ≤ i ∧ (∃ b, l[i - k]? = some b ∧ b.fits size) ∧
        ∀ j c, j < i - k → l[j]? = some c → ¬ c.fits size := by
  induction l generalizing k last with
  | nil => simp [firstFitLoop]
  | cons b rest ih =>
    by_cases hb : b.fits size
    · have hb2 := hb
      unfold Block.fits at hb2
      simp only [firstFitLoop, hb2.1, hb2.2, decide_True, Bool.and_self, if_true,
        Option.some.injEq]
      constructor
      · rintro rfl
        exact ⟨le_refl _, ⟨b, by simp, hb⟩, fun j c hj => by omega⟩
      · rintro ⟨hk, _, hall⟩
        by_contra hne
        exact hall 0 b (by omega) (by simp) hb
    · have hc : (b.free && decide (size ≤ b.size)) = false := by
        unfold Block.fits at hb
        cases hf : b.free <;> simp_all
      simp only [firstFitLoop, hc, Bool.false_eq_true, if_false, ih]
      constructor
      · rintro ⟨hk, ⟨c, hc1, hc2⟩, hall⟩
        refine ⟨by omega, ⟨c, ?_, hc2⟩, ?_⟩
        · have : i - k = (i - (k + 1)) + 1 := by omega
          rw [this, List.getElem?_cons_succ]; exact hc1
        · intro j d hj hd
          cases j with
          | zero => simp at hd; subst hd; exact hb
          | succ j =>
            rw [List.getElem?_cons_succ] at hd
            exact hall j d (by omega) hd
      · rintro ⟨hk, ⟨c, hc1, hc2⟩, hall⟩
        have hik : k ≠ i := by
          rintro rfl
          simp at hc1; subst hc1; exact hb hc2
        refine ⟨by omega, ⟨c, ?_, hc2⟩, ?_⟩
        · have : i - k = (i - (k + 1)) + 1 := by omega
          rw [this, List.getElem?_cons_succ] at hc1; exact hc1
        · intro j d hj hd
          exact hall (j + 1) d (by omega) (by rw [List.getElem?_cons_succ]; exact hd)

/-! ## Payloads of distinct live blocks -/

/-- C1, the code at the failing input (LP64, first fit, empty heap with the
break at 4096).  The split in `malloc` links a new free header behind the
first `size` bytes of the payload of the selected block but never stores
`size` into that block.  After `malloc(100)`, `free`, `malloc(8)` the block at
4096 still records 100 bytes.  `malloc(40)` hands out the remainder (data at
4168), and after `free(4128)` the call `malloc(100)` hands out the 100 bytes
at 4128 again: the chain then holds two blocks in use, and the payload
`[4128, 4228)` of the first covers the header `[4136, 4168)` and the payload
`[4168, 4228)` of the second. -/
theorem split_keeps_size_payloads_overlap :
    observe (run lp64 .first (Heap.empty 4096 1048576)
        [.malloc 100, .free (some 4128), .malloc 8, .malloc 40, .free (some 4128),
          .malloc 100])
      = some ([some 4128, none, some 4128, some 4168, none, some 4128],
          [⟨4096, 100, false⟩, ⟨4136, 60, false⟩]) ∧
    ¬ Block.payloadApart lp64 ⟨4096, 100, false⟩ ⟨4136, 60, false⟩ ∧
    (4128 ≤ 4168 ∧ 4168 + 40 ≤ 4128 + 100) := by
  decide

/-! ## The scenario of the reused block -/

/-- C2: with the first-fit scan, from the empty heap, `malloc(10)` creates
block A with size 12 and `malloc(20)` block B with size 20; after `free(A)`
the call `malloc(8)` returns the data address of A again, leaves `num_grows`
as it was, adds one to `num_reuses`, and the chain still has exactly the two
blocks A and B. -/
theorem first_fit_reuses_released_block (a : Arch) (hw : 32 ≤ a.w) (hh : 4 ≤ a.hdr)
    (hh2 : a.hdr < 2 ^ 16) (base limit : Nat) (hroom : base + 2 * a.hdr + 32 ≤ limit)
    (hlim : limit < a.modulus - 1) :
    ∃ hA hB hC hD : Heap,
      malloc a .first (Heap.empty base limit) 10 = .ok (some (base + a.hdr), hA) ∧
      hA.heapList = [⟨base, 12, false⟩] ∧
      malloc a .first hA 20 = .ok (some (base + a.hdr + 12 + a.hdr), hB) ∧
      hB.heapList = [⟨base, 12, false⟩, ⟨base + a.hdr + 12, 20, false⟩] ∧
      free a hB (some (base + a.hdr)) = .ok hC ∧
      malloc a .first hC 8 = .ok (some (base + a.hdr), hD) ∧
      hD.num_grows = hC.num_grows ∧ hD.num_reuses = hC.num_reuses + 1 ∧
      hD.heapList = [⟨base, 12, false⟩, ⟨base + a.hdr + 12, 20, false⟩] ∧
      hD.heapList.length = 2 := by
  have hM := modulus_ge a hw
  have a10 : ALIGN4 a 10 = 12 := by rw [ALIGN4_eq a 10 (by omega) (by omega)]
  have a20 : ALIGN4 a 20 = 20 := by rw [ALIGN4_eq a 20 (by omega) (by omega)]
  have a8 : ALIGN4 a 8 = 8 := by rw [ALIGN4_eq a 8 (by omega) (by omega)]
  -- first call: the chain is empty, the heap grows
  obtain ⟨hA, e1, cA, bA, loA, hiA⟩ : ∃ hA : Heap,
      malloc a .first (Heap.empty base limit) 10 = .ok (some (base + a.hdr), hA) ∧
      hA.heapList = [⟨base, 12, false⟩] ∧ hA.brk = base + a.hdr + 12 ∧
      hA.brkMin = base ∧ hA.brkMax = limit :=
    ⟨_, malloc_grow a hw .first (Heap.empty base limit) 10 12 none a10 (by omega)
      (by simp [Heap.empty, findFreeBlock, firstFitLoop]) (by omega)
      (by simp [Heap.empty]) (by simp [Heap.empty]; omega) (by simpa [Heap.empty] using hlim),
      rfl, rfl, rfl, rfl⟩
  -- second call: block A is in use, the heap grows behind it
  obtain ⟨hB, e2, cB⟩ : ∃ hB : Heap,
      malloc a .first hA 20 = .ok (some (base + a.hdr + 12 + a.hdr), hB) ∧
      hB.heapList = [⟨base, 12, false⟩, ⟨base + a.hdr + 12, 20, false⟩] := by
    have := malloc_grow a hw .first hA 20 20 (some 0) a20 (by omega)
      (by simp [cA, findFreeBlock, firstFitLoop]) (by omega)
      (by omega) (by omega) (by omega)
    rw [bA] at this
    exact ⟨_, this, by simp [cA]⟩
  -- release of A: B is in use, nothing is merged
  obtain ⟨hC, e3, cC⟩ : ∃ hC : Heap,
      free a hB (some (base + a.hdr)) = .ok hC ∧
      hC.heapList = [⟨base, 12, true⟩, ⟨base + a.hdr + 12, 20, false⟩] :=
    ⟨_, free_ok a hB (base + a.hdr) [] [⟨base + a.hdr + 12, 20, false⟩] ⟨base, 12, false⟩
      (by simp [cB, locate]) rfl, by simp [coalesceLoop]⟩
  -- third call: A is the first free block that fits and is too small to split
  have e4 := malloc_found a .first hC 8 8 0 (some 0) ⟨base, 12, true⟩ a8 (by omega)
    (by simp [cC, findFreeBlock, firstFitLoop]) (by simp [cC])
  have hns : ¬ ((12 + a.modulus - 8) % a.modulus > a.hdr) := by
    have : (12 + a.modulus - 8) % a.modulus = 4 := by
      have : 12 + a.modulus - 8 = 4 + a.modulus := by omega
      rw [this, Nat.add_mod_right, Nat.mod_eq_of_lt (by omega)]
    omega
  simp only [hns, if_false] at e4
  exact ⟨hA, hB, hC, _, e1, cA, e2, cB, e3, e4, rfl, rfl, by simp [cC, List.modify],
    by simp [cC, List.modify]⟩

/-- The scenario of C2 on LP64 with the break at 4096. -/
theorem first_fit_reuses_released_block_witness :
    32 ≤ lp64.w ∧ 4 ≤ lp64.hdr ∧ lp64.hdr < 2 ^ 16 ∧ 4096 + 2 * lp64.hdr + 32 ≤ 1048576 ∧
    1048576 < lp64.modulus - 1 ∧
    ∃ hA hB hC hD : Heap,
      malloc lp64 .first (Heap.empty 4096 1048576) 10 = .ok (some (4096 + lp64.hdr), hA) ∧
      hA.heapList = [⟨4096, 12, false⟩] ∧
      malloc lp64 .first hA 20 = .ok (some (4096 + lp64.hdr + 12 + lp64.hdr), hB) ∧
      hB.heapList = [⟨4096, 12, false⟩, ⟨4096 + lp64.hdr + 12, 20, false⟩] ∧
      free lp64 hB (some (4096 + lp64.hdr)) = .ok hC ∧
      malloc lp64 .first hC 8 = .ok (some (4096 + lp64.hdr), hD) ∧
      hD.num_grows = hC.num_grows ∧ hD.num_reuses = hC.num_reuses + 1 ∧
      hD.heapList = [⟨4096, 12, false⟩, ⟨4096 + lp64.hdr + 12, 20, false⟩] ∧
      hD.heapList.length = 2 :=
  ⟨by decide, by decide, by decide, by decide, by decide,
    first_fit_reuses_released_block lp64 (by decide) (by decide) (by decide) 4096 1048576
      (by decide) (by decide)⟩

/-! ## Release of two neighbours -/

/-- Headers that lie apart and are not empty have different addresses. -/
theorem headersApart_addr (a : Arch) (hh : 0 < a.hdr) (pre post : List Block) (b : Block)
    (hap : HeadersApart a (pre ++ b :: post)) : ∀ c ∈ pre, c.addr ≠ b.addr := by
  intro c hc e
  unfold HeadersApart at hap
  rw [List.pairwise_append] at hap
  have := hap.2.2 c hc b (by simp)
  omega

/-- C3, counterexample (LP64, first fit, empty heap with the break at 4096).
Three calls `malloc(8)` and the release of the third leave the chain A, B, C
with A and B in use, B right behind A, and C free.  Releasing B folds C into B,
and releasing A then folds that into A: the chain is the single free block at
4096 with size 88 = 8 + (8 + 8 + 32) + 32, not a block of size 8 + 8 + 32 = 48
followed by C.  With five blocks A to E, of which D and then E were released,
releasing B and then A also merges E into D, two blocks that are neither A
nor B. -/
theorem release_pair_not_as_claimed :
    observe (run lp64 .first (Heap.empty 4096 1048576)
        [.malloc 8, .malloc 8, .malloc 8, .free (some 4208)])
      = some ([some 4128, some 4168, some 4208, none],
          [⟨4096, 8, false⟩, ⟨4136, 8, false⟩, ⟨4176, 8, true⟩]) ∧
    observe (run lp64 .first (Heap.empty 4096 1048576)
        [.malloc 8, .malloc 8, .malloc 8, .free (some 4208),
          .free (some 4168), .free (some 4128)])
      = some ([some 4128, some 4168, some 4208, none, none, none], [⟨4096, 88, true⟩]) ∧
    ([⟨4096, 88, true⟩] : List Block) ≠ [⟨4096, 8 + 8 + 32, true⟩, ⟨4176, 8, true⟩] ∧
    observe (run lp64 .first (Heap.empty 4096 1048576)
        [.malloc 8, .malloc 8, .malloc 8, .malloc 8, .malloc 8,
          .free (some 4248), .free (some 4288)])
      = some ([some 4128, some 4168, some 4208, some 4248, some 4288, none, none],
          [⟨4096, 8, false⟩, ⟨4136, 8, false⟩, ⟨4176, 8, false⟩, ⟨4216, 8, true⟩,
            ⟨4256, 8, true⟩]) ∧
    observe (run lp64 .first (Heap.empty 4096 1048576)
        [.malloc 8, .malloc 8, .malloc 8, .malloc 8, .malloc 8,
          .free (some 4248), .free (some 4288), .free (some 4168), .free (some 4128)])
      = some ([some 4128, some 4168, some 4208, some 4248, some 4288, none, none, none, none],
          [⟨4096, 8 + 8 + 32, true⟩, ⟨4176, 8, false⟩, ⟨4216, 48, true⟩]) := by
  decide

/-- C3, amended: in a chain whose headers occupy pairwise disjoint bytes let A
and B be in use, B right behind A, the block behind B absent or in use, and
`A.size + B.size + hdr` below `2 ^ w`.  Then `free(B)` followed by `free(A)`
succeeds and leaves, in place of the two, one free block at the address of A
with size `A.size + B.size + hdr`; the blocks before A are unchanged; behind
the merged block comes what the loops of the two calls leave of the blocks
behind B, which is those blocks unchanged when no two neighbours among them
are both free. -/
theorem release_pair_merges (a : Arch) (h : Heap) (pre post : List Block) (A B : Block)
    (hh : 0 < a.hdr)
    (hch : h.heapList = pre ++ A :: B :: post)
    (hA : A.free = false) (hB : B.free = false)
    (hap : HeadersApart a h.heapList)
    (hsucc : ∀ c, post.head? = some c → c.free = false)
    (hsum : A.size + B.size + a.hdr < a.modulus) :
    ∃ h1 h2 : Heap,
      free a h (some (BLOCK_DATA a B)) = .ok h1 ∧
      free a h1 (some (BLOCK_DATA a A)) = .ok h2 ∧
      h2.heapList = pre ++ ⟨A.addr, A.size + B.size + a.hdr, true⟩ ::
        (coalesceLoop a (coalesceLoop a post).1).1 ∧
      (NoFreePair post →
        h2.heapList = pre ++ ⟨A.addr, A.size + B.size + a.hdr, true⟩ :: post) := by
  rw [hch] at hap
  have hpreA : ∀ c ∈ pre, c.addr ≠ A.addr := headersApart_addr a hh pre (B :: post) A hap
  have hpreB : ∀ c ∈ pre ++ [A], c.addr ≠ B.addr :=
    headersApart_addr a hh (pre ++ [A]) post B (by simpa using hap)
  have l1 : locate a (B.addr + a.hdr) h.heapList = some (pre ++ [A], B, post) := by
    rw [hch]
    have := locate_append a (pre ++ [A]) post B hpreB
    simpa using this
  obtain ⟨h1, e1, c1⟩ : ∃ h1 : Heap, free a h (some (BLOCK_DATA a B)) = .ok h1 ∧
      h1.heapList = pre ++ A :: ⟨B.addr, B.size, true⟩ :: (coalesceLoop a post).1 :=
    ⟨_, free_ok a h (B.addr + a.hdr) (pre ++ [A]) post B l1 hB,
      by simp [coalesceLoop_used_next a _ post hsucc]⟩
  have l2 : locate a (A.addr + a.hdr) h1.heapList
      = some (pre, A, ⟨B.addr, B.size, true⟩ :: (coalesceLoop a post).1) := by
    rw [c1]
    exact locate_append a pre _ A hpreA
  obtain ⟨h2, e2, c2⟩ : ∃ h2 : Heap, free a h1 (some (BLOCK_DATA a A)) = .ok h2 ∧
      h2.heapList = pre ++ ⟨A.addr, A.size + B.size + a.hdr, true⟩ ::
        (coalesceLoop a (coalesceLoop a post).1).1 :=
    ⟨_, free_ok a h1 (A.addr + a.hdr) pre _ A l2 hA,
      by simp [coalesceLoop, Nat.mod_eq_of_lt hsum]⟩
  refine ⟨h1, h2, e1, e2, c2, fun hp => ?_⟩
  rw [c2, coalesceLoop_noFreePair a post hp, coalesceLoop_noFreePair a post hp]

/-- The amended C3 on LP64 at the second and third of five blocks. -/
theorem release_pair_merges_witness :
    0 < lp64.hdr ∧
    fiveBlocks.heapList = [⟨4096, 8, false⟩] ++ ⟨4136, 8, false⟩ :: ⟨4176, 16, false⟩ ::
      [⟨4224, 8, false⟩, ⟨4264, 8, true⟩] ∧
    HeadersApart lp64 fiveBlocks.heapList ∧
    8 + 16 + lp64.hdr < lp64.modulus ∧
    ∃ h1 h2 : Heap,
      free lp64 fiveBlocks (some (BLOCK_DATA lp64 ⟨4176, 16, false⟩)) = .ok h1 ∧
      free lp64 h1 (some (BLOCK_DATA lp64 ⟨4136, 8, false⟩)) = .ok h2 ∧
      h2.heapList = [⟨4096, 8, false⟩] ++ ⟨4136, 8 + 16 + lp64.hdr, true⟩ ::
        (coalesceLoop lp64 (coalesceLoop lp64 [⟨4224, 8, false⟩, ⟨4264, 8, true⟩]).1).1 ∧
      (NoFreePair [⟨4224, 8, false⟩, ⟨4264, 8, true⟩] →
        h2.heapList = [⟨4096, 8, false⟩] ++ ⟨4136, 8 + 16 + lp64.hdr, true⟩ ::
          [⟨4224, 8, false⟩, ⟨4264, 8, true⟩]) :=
  ⟨by decide, rfl, by decide, by decide,
    release_pair_merges lp64 fiveBlocks [⟨4096, 8, false⟩] [⟨4224, 8, false⟩, ⟨4264, 8, true⟩]
      ⟨4136, 8, false⟩ ⟨4176, 16, false⟩ (by decide) rfl rfl rfl (by decide)
      (fun c hc => by cases hc; rfl) (by decide)⟩

/-! ## The four scans -/

/-- C4: with the first-fit scan `findFreeBlock` returns position `i` exactly
when the block at `i` is free with `size` at least the request and no block
before it in the chain is; it returns `NULL` exactly when no block of the
chain is free with `size` at least the request. -/
theorem first_fit_returns_first_fitting_block (a : Arch) (chain : List Block)
    (last : Option Nat) (size : Nat) :
    (∀ i, (findFreeBlock a .first chain last size).1 = some i ↔
        (∃ b, chain[i]? = some b ∧ b.free = true ∧ size ≤ b.size) ∧
          ∀ j c, j < i → chain[j]? = some c → ¬ (c.free = true ∧ size ≤ c.size)) ∧
      ((findFreeBlock a .first chain last size).1 = none ↔
        ∀ b ∈ chain, ¬ (b.free = true ∧ size ≤ b.size)) := by
  refine ⟨fun i => ?_, ?_⟩
  · have := firstFitLoop_some size chain 0 last i
    simpa [findFreeBlock, Block.fits] using this
  · have := firstFitLoop_none size chain 0 last
    simpa [findFreeBlock, Block.fits] using this

/-- C5, the code at the failing input (LP64, best fit): the scan tests
`curr->size > size`, so on the chain of one free block of size 12 a request of
12 bytes finds nothing, and `malloc(12)`, `free`, `malloc(12)` grows the heap
for the second request (data at 4172) while the free block at 4096 stays
free. -/
theorem best_fit_skips_exact_fit :
    findFreeBlock lp64 .best [⟨4096, 12, true⟩] (some 0) 12 = (none, some 0) ∧
    observe (run lp64 .best (Heap.empty 4096 1048576)
        [.malloc 12, .free (some 4128), .malloc 12])
      = some ([some 4128, none, some 4172], [⟨4096, 12, true⟩, ⟨4140, 12, false⟩]) := by
  decide

/-- C6, the code at the failing input (LP64, worst fit): `diff` starts as
`INT_MIN` converted to `size_t`, that is `2 ^ 64 - 2 ^ 31`, and no difference
of sizes exceeds it, so on the chain of one free block of size 12 a request of
8 bytes finds nothing, and `malloc(12)`, `free`, `malloc(8)` grows the heap
for the second request (data at 4172). -/
theorem worst_fit_selects_nothing :
    toSizeT lp64 INT_MIN = 2 ^ 64 - 2 ^ 31 ∧
    findFreeBlock lp64 .worst [⟨4096, 12, true⟩] (some 0) 8 = (none, some 0) ∧
    observe (run lp64 .worst (Heap.empty 4096 1048576)
        [.malloc 12, .free (some 4128), .malloc 8])
      = some ([some 4128, none, some 4172], [⟨4096, 12, true⟩, ⟨4140, 8, false⟩]) := by
  decide

/-- C7, the code at the failing input (LP64, next fit): `malloc` passes
`last = heapList` on every call, so the scan starts at the second block of the
chain, keeps no position between calls and never wraps.  On the chain of one
free block of size 12 a request of 8 bytes finds nothing, and `malloc(12)`,
`free`, `malloc(8)` grows the heap for the second request (data at 4172) while
the free head block stays free. -/
theorem next_fit_skips_head_block :
    findFreeBlock lp64 .next [⟨4096, 12, true⟩] (some 0) 8 = (none, some 0) ∧
    observe (run lp64 .next (Heap.empty 4096 1048576)
        [.malloc 12, .free (some 4128), .malloc 8])
      = some ([some 4128, none, some 4172], [⟨4096, 12, true⟩, ⟨4140, 8, false⟩]) := by
  decide

/-! ## `realloc`, `calloc` and the zero-byte request -/

/-- C8, the code at the failing input (LP64, first fit): after `malloc(12)`
returned 4128, `realloc(4128, 0)` returns `NULL` and leaves the block at 4096
in use, whereas `free(4128)` marks it free. -/
theorem realloc_zero_keeps_block_used :
    observe (run lp64 .first (Heap.empty 4096 1048576) [.malloc 12, .realloc (some 4128) 0])
      = some ([some 4128, none], [⟨4096, 12, false⟩]) ∧
    observe (run lp64 .first (Heap.empty 4096 1048576) [.malloc 12, .free (some 4128)])
      = some ([some 4128, none], [⟨4096, 12, true⟩]) := by
  decide

/-- C9, the code at the failing input (LP64, first fit): the product
`(2 ^ 63 + 4) * 2` does not fit in `size_t`; `calloc` passes its low 64 bits,
8, to `malloc` and returns the data pointer 4128 of a block of 8 bytes. -/
theorem calloc_overflow_returns_block :
    lp64.modulus ≤ (2 ^ 63 + 4) * 2 ∧
    observe (run lp64 .first (Heap.empty 4096 1048576) [.calloc (2 ^ 63 + 4) 2])
      = some ([some 4128], [⟨4096, 8, false⟩]) := by
  decide

/-- C10: in every state and under every scan `malloc(0)` returns `NULL`; the
chain, the break and the counters of growths, splits and blocks are what they
were. -/
theorem malloc_zero_returns_null (a : Arch) (fit : Fit) (h : Heap) :
    ∃ h1 : Heap, malloc a fit h 0 = .ok (none, h1) ∧ h1.heapList = h.heapList ∧ h1.brk = h.brk ∧
      h1.num_grows = h.num_grows ∧ h1.num_splits = h.num_splits ∧
      h1.num_blocks = h.num_blocks :=
  ⟨_, malloc_zero a fit h, rfl, rfl, rfl, rfl, rfl⟩

/-! ## What a returning call did -/

/-- A call of `sbrk` changes nothing but the break, and a moved break is at
most `brkMax`. -/
theorem sbrk_state (a : Arch) (h : Heap) (x : Int) :
    ∃ k, (sbrk a h x).2 = { h with brk := k } ∧ (k = h.brk ∨ k ≤ h.brkMax) := by
  unfold sbrk; split
  · exact ⟨h.brk, rfl, Or.inl rfl⟩
  · split
    · rename_i hc
      exact ⟨_, rfl, Or.inr (by omega)⟩
    · exact ⟨h.brk, rfl, Or.inl rfl⟩

theorem sbrk_zero (a : Arch) (h : Heap) : (sbrk a h 0).1 = h.brk := by
  simp [sbrk]

/-- What a returning `growHeap` did: either the break sits at `(void *) -1`
and nothing is linked, or a header at the old break is linked behind `last`. -/
theorem growHeap_inv (a : Arch) (h : Heap) (last : Option Nat) (size : Nat) (q : Option Nat)
    (h1 : Heap) :
    growHeap a h last size = .ok (q, h1) →
    ∃ k, (k = h.brk ∨ k ≤ h.brkMax) ∧
      ((q = none ∧ h.brk = a.modulus - 1 ∧ h1 = { h with brk := k }) ∨
        (q = some h.brk ∧ h.brk ≠ a.modulus - 1 ∧
          h1 = { h with
            brk := k,
            heapList :=
              match last with
              | some i => h.heapList.take (i + 1) ++ [⟨h.brk, size, false⟩]
              | none => if h.heapList.isEmpty then [⟨h.brk, size, false⟩] else h.heapList })) := by
  intro hg
  obtain ⟨k, hk, hk2⟩ := sbrk_state a h (toSigned a ((a.hdr + size) % a.modulus))
  refine ⟨k, hk2, ?_⟩
  unfold growHeap at hg
  simp only [sbrk_zero, hk] at hg
  split at hg
  · cases hg
  · split at hg
    · rename_i hc
      injection hg with hg
      injection hg with hq hh
      subst hq; subst hh
      exact Or.inl ⟨rfl, hc, rfl⟩
    · rename_i hc
      injection hg with hg
      injection hg with hq hh
      subst hq; subst hh
      refine Or.inr ⟨rfl, hc, ?_⟩
      cases last <;> rfl

/-- What a returning `malloc(n)` did, field by field: it returned at the
zero-size test, or served the request from a block found by the scan (with or
without a split), or went through `growHeap`. -/
theorem malloc_inv (a : Arch) (fit : Fit) (h : Heap) (n : Nat) (p : Option Nat) (h1 : Heap) :
    malloc a fit h n = .ok (p, h1) →
    h1.num_coalesces = h.num_coalesces ∧ h1.num_frees = h.num_frees ∧
    h1.brkMax = h.brkMax ∧ h1.brkMin = h.brkMin ∧
    ((ALIGN4 a n = 0 ∧ p = none ∧ h1.heapList = h.heapList ∧ h1.num_blocks = h.num_blocks ∧
        h1.num_reuses = h.num_reuses ∧ h1.num_grows = h.num_grows ∧
        h1.num_splits = h.num_splits ∧ h1.brk = h.brk) ∨
      (ALIGN4 a n ≠ 0 ∧ ∃ i last b,
        findFreeBlock a fit h.heapList (if h.heapList.isEmpty then none else some 0) (ALIGN4 a n)
          = (some i, last) ∧
        h.heapList[i]? = some b ∧ p = some (b.addr + a.hdr) ∧
        h1.num_reuses = h.num_reuses + 1 ∧ h1.num_grows = h.num_grows ∧ h1.brk = h.brk ∧
        (((b.size + a.modulus - ALIGN4 a n) % a.modulus > a.hdr ∧
            h1.heapList = (h.heapList.take (i + 1) ++
              splitBlock a b (ALIGN4 a n) :: h.heapList.drop (i + 1)).modify
                (fun c => { c with free := false }) i ∧
            h1.num_blocks = h.num_blocks + 1 ∧ h1.num_splits = h.num_splits + 1) ∨
          (¬ (b.size + a.modulus - ALIGN4 a n) % a.modulus > a.hdr ∧
            h1.heapList = h.heapList.modify (fun c => { c with free := false }) i ∧
            h1.num_blocks = h.num_blocks ∧ h1.num_splits = h.num_splits))) ∨
      (ALIGN4 a n ≠ 0 ∧ ∃ last,
        findFreeBlock a fit h.heapList (if h.heapList.isEmpty then none else some 0) (ALIGN4 a n)
          = (none, last) ∧
        h1.num_grows = h.num_grows + 1 ∧ h1.num_blocks = h.num_blocks + 1 ∧
        h1.num_splits = h.num_splits ∧ (h1.brk = h.brk ∨ h1.brk ≤ h.brkMax) ∧
        ((p = none ∧ h.brk = a.modulus - 1 ∧ h1.heapList = h.heapList ∧
            h1.num_reuses = h.num_reuses) ∨
          (p = some (h.brk + a.hdr) ∧ h.brk ≠ a.modulus - 1 ∧
            h1.num_reuses = h.num_reuses + 1 ∧
            h1.heapList =
              match last with
              | some i => h.heapList.take (i + 1) ++ [⟨h.brk, ALIGN4 a n, false⟩]
              | none =>
                if h.heapList.isEmpty then [⟨h.brk, ALIGN4 a n, false⟩]
                else h.heapList)))) := by
  intro hm
  by_cases hs0 : ALIGN4 a n = 0
  · unfold malloc at hm
    simp only [hs0, if_true] at hm
    injection hm with hm
    injection hm with hp hh
    subst hp; subst hh
    exact ⟨rfl, rfl, rfl, rfl, Or.inl ⟨hs0, rfl, rfl, rfl, rfl, rfl, rfl, rfl⟩⟩
  · unfold malloc at hm
    simp only [hs0, if_false] at hm
    generalize hf : findFreeBlock a fit h.heapList
      (if h.heapList.isEmpty then none else some 0) (ALIGN4 a n) = r at hm
    obtain ⟨next, last⟩ := r
    cases next with
    | some i =>
      simp only at hm
      cases hb : h.heapList[i]? with
      | none => simp [hb] at hm
      | some b =>
        simp only [hb] at hm
        injection hm with hm
        injection hm with hp hh
        subst hp; subst hh
        by_cases hc : (b.size + a.modulus - ALIGN4 a n) % a.modulus > a.hdr
        · rw [if_pos hc]
          exact ⟨rfl, rfl, rfl, rfl, Or.inr (Or.inl ⟨hs0, i, last, b, rfl, hb, rfl, rfl, rfl,
            rfl, Or.inl ⟨hc, rfl, rfl, rfl⟩⟩)⟩
        · rw [if_neg hc]
          exact ⟨rfl, rfl, rfl, rfl, Or.inr (Or.inl ⟨hs0, i, last, b, rfl, hb, rfl, rfl, rfl,
            rfl, Or.inr ⟨hc, rfl, rfl, rfl⟩⟩)⟩
    | none =>
      simp only at hm
      cases hg : growHeap a
        { h with num_mallocs := h.num_mallocs + 1,
                 num_requested := addSize a h.num_requested n,
                 atexit_registered := true } last (ALIGN4 a n) with
      | error e => simp [hg] at hm
      | ok r =>
        obtain ⟨q, h2⟩ := r
        simp only [hg] at hm
        obtain ⟨k, hk, hcase⟩ := growHeap_inv a _ last (ALIGN4 a n) q h2 hg
        rcases hcase with ⟨hq, hbrk, hh2⟩ | ⟨hq, hbrk, hh2⟩
        · subst hq; subst hh2
          simp only at hm
          injection hm with hm
          injection hm with hp hh
          subst hp; subst hh
          exact ⟨rfl, rfl, rfl, rfl, Or.inr (Or.inr ⟨hs0, last, rfl, rfl, rfl, rfl, hk,
            Or.inl ⟨rfl, hbrk, rfl, rfl⟩⟩)⟩
        · subst hq; subst hh2
          simp only at hm
          injection hm with hm
          injection hm with hp hh
          subst hp; subst hh
          exact ⟨rfl, rfl, rfl, rfl, Or.inr (Or.inr ⟨hs0, last, rfl, rfl, rfl, rfl, hk,
            Or.inr ⟨rfl, hbrk, rfl, rfl⟩⟩)⟩

/-! ## The out-parameter `last` -/

theorem firstFitLoop_last (size : Nat) (l : List Block) (k : Nat) (last : Option Nat)
    (hn : (firstFitLoop size l k last).1 = none) :
    (firstFitLoop size l k last).2 = if l = [] then last else some (k + l.length - 1) := by
  induction l generalizing k last with
  | nil => simp [firstFitLoop]
  | cons b rest ih =>
    by_cases hc : (b.free && decide (size ≤ b.size)) = true
    · simp [firstFitLoop, hc] at hn
    · simp only [firstFitLoop, hc, Bool.false_eq_true, if_false] at hn ⊢
      rw [ih (k + 1) (some k) hn]
      by_cases hr : rest = []
      · simp [hr]
      · simp only [hr, if_false, List.length_cons, reduceCtorEq]
        congr 1
        omega

theorem bestFitLoop_last (a : Arch) (size : Nat) (l : List Block) (k : Nat) (last : Option Nat)
    (diff : Nat) (bb : Option Nat) :
    (bestFitLoop a size l k last diff bb).2 = if l = [] then last else some (k + l.length - 1) := by
  induction l generalizing k last diff bb with
  | nil => simp [bestFitLoop]
  | cons b rest ih =>
    have key : ∀ d c, (bestFitLoop a size rest (k + 1) (some k) d c).2
        = some (k + (b :: rest).length - 1) := by
      intro d c
      rw [ih]
      by_cases hr : rest = []
      · simp [hr]
      · simp only [hr, if_false, List.length_cons]
        congr 1
        omega
    simp only [bestFitLoop, reduceCtorEq, if_false]
    split
    · split <;> exact key _ _
    · exact key _ _

theorem worstFitLoop_last (a : Arch) (size : Nat) (l : List Block) (k : Nat) (last : Option Nat)
    (diff : Nat) (wb : Option Nat) :
    (worstFitLoop a size l k last diff wb).2 = if l = [] then last else some (k + l.length - 1) := by
  induction l generalizing k last diff wb with
  | nil => simp [worstFitLoop]
  | cons b rest ih =>
    have key : ∀ d c, (worstFitLoop a size rest (k + 1) (some k) d c).2
        = some (k + (b :: rest).length - 1) := by
      intro d c
      rw [ih]
      by_cases hr : rest = []
      · simp [hr]
      · simp only [hr, if_false, List.length_cons]
        congr 1
        omega
    simp only [worstFitLoop, reduceCtorEq, if_false]
    split
    · split <;> exact key _ _
    · exact key _ _

/-- Under each of the four scans: when `findFreeBlock` returns `NULL` on a
chain that is not empty, entered with `*last` either `NULL` or a block of the
chain, `*last` is the tail on return. -/
theorem findFreeBlock_last (a : Arch) (fit : Fit) (chain : List Block) (last : Option Nat)
    (size : Nat) (hne : chain ≠ []) (hlast : ∀ i, last = some i → i < chain.length)
    (hn : (findFreeBlock a fit chain last size).1 = none) :
    (findFreeBlock a fit chain last size).2 = some (chain.length - 1) := by
  cases fit with
  | first =>
    simp only [findFreeBlock] at hn ⊢
    rw [firstFitLoop_last size chain 0 last hn]
    simp [hne]
  | best =>
    simp only [findFreeBlock]
    rw [bestFitLoop_last]
    simp [hne]
  | worst =>
    simp only [findFreeBlock]
    rw [worstFitLoop_last]
    simp [hne]
  | next =>
    cases last with
    | none =>
      simp only [findFreeBlock] at hn ⊢
      rw [firstFitLoop_last size chain 0 none hn]
      simp [hne]
    | some i =>
      have hi := hlast i rfl
      simp only [findFreeBlock] at hn ⊢
      rw [firstFitLoop_last size _ (i + 1) (some i) hn]
      by_cases hd : List.drop (i + 1) chain = []
      · simp only [hd, if_true]
        have := List.drop_eq_nil_iff.1 hd
        congr 1
        omega
      · simp only [hd, if_false, List.length_drop]
        have : i + 1 < chain.length := by
          by_contra hlt
          exact hd (List.drop_eq_nil_iff.2 (by omega))
        congr 1
        omega

/-- The position that `malloc` passes in `last`, `heapList` itself, is a block
of the chain. -/
theorem findFreeBlock_last_malloc (a : Arch) (fit : Fit) (chain : List Block) (size : Nat)
    (hne : chain ≠ [])
    (hn : (findFreeBlock a fit chain (if chain.isEmpty then none else some 0) size).1 = none) :
    (findFreeBlock a fit chain (if chain.isEmpty then none else some 0) size).2
      = some (chain.length - 1) := by
  apply findFreeBlock_last a fit chain _ size hne _ hn
  intro i hi
  have : chain.isEmpty = false := by
    cases chain with
    | nil => exact absurd rfl hne
    | cons _ _ => rfl
  simp only [this, Bool.false_eq_true, if_false, Option.some.injEq] at hi
  subst hi
  exact List.length_pos.2 hne

theorem findFreeBlock_nil (a : Arch) (fit : Fit) (last : Option Nat) (size : Nat) :
    findFreeBlock a fit [] none size = (none, none) ∧
      (findFreeBlock a fit [] last size).1 = none := by
  cases fit <;> cases last <;> simp [findFreeBlock, firstFitLoop, bestFitLoop, worstFitLoop]

/-! ## `free`, step by step -/

theorem locate_eq (a : Arch) (p : Nat) (l pre post : List Block) (b : Block)
    (hl : locate a p l = some (pre, b, post)) : l = pre ++ b :: post ∧ b.addr + a.hdr = p := by
  induction l generalizing pre with
  | nil => simp [locate] at hl
  | cons c rest ih =>
    unfold locate at hl
    split at hl
    · rename_i hc
      injection hl with hl
      injection hl with h1 h2
      injection h2 with h2 h3
      subst h1; subst h2; subst h3
      exact ⟨rfl, hc⟩
    · cases hr : locate a p rest with
      | none => simp [hr] at hl
      | some r =>
        obtain ⟨pre2, c2, post2⟩ := r
        simp only [hr] at hl
        injection hl with hl
        injection hl with h1 h2
        injection h2 with h2 h3
        subst h1; subst h2; subst h3
        obtain ⟨e1, e2⟩ := ih pre2 hr
        exact ⟨by rw [e1]; rfl, e2⟩

theorem locate_pre (a : Arch) (p : Nat) (l pre post : List Block) (b : Block)
    (hl : locate a p l = some (pre, b, post)) : ∀ c ∈ pre, c.addr + a.hdr ≠ p := by
  induction l generalizing pre with
  | nil => simp [locate] at hl
  | cons c rest ih =>
    unfold locate at hl
    split at hl
    · injection hl with hl
      injection hl with h1 _
      subst h1
      simp
    · rename_i hc
      cases hr : locate a p rest with
      | none => simp [hr] at hl
      | some r =>
        obtain ⟨pre2, c2, post2⟩ := r
        simp only [hr] at hl
        injection hl with hl
        injection hl with h1 h2
        injection h2 with h2 h3
        subst h1; subst h2; subst h3
        intro d hd
        rcases List.mem_cons.1 hd with hd | hd
        · subst hd; exact hc
        · exact ih pre2 hr d hd

/-- What a returning `free(p)` did. -/
theorem free_inv (a : Arch) (h : Heap) (p : Nat) (h1 : Heap)
    (hf : free a h (some p) = .ok h1) :
    ∃ pre b post, h.heapList = pre ++ b :: post ∧ b.addr + a.hdr = p ∧ b.free = false ∧
      (∀ c ∈ pre, c.addr + a.hdr ≠ p) ∧
      h1 = { h with heapList := pre ++ (coalesceLoop a ({ b with free := true } :: post)).1,
                    num_frees := h.num_frees + 1,
                    num_coalesces := h.num_coalesces
                      + ((coalesceLoop a ({ b with free := true } :: post)).2 : Int),
                    num_blocks := h.num_blocks
                      - ((coalesceLoop a ({ b with free := true } :: post)).2 : Int) } := by
  cases hl : locate a p h.heapList with
  | none => simp [free, hl] at hf
  | some r =>
    obtain ⟨pre, b, post⟩ := r
    obtain ⟨e1, e2⟩ := locate_eq a p _ pre post b hl
    cases hb : b.free with
    | true => simp [free, hl, hb] at hf
    | false =>
      rw [free_ok a h p pre post b hl hb] at hf
      injection hf with hf
      exact ⟨pre, b, post, e1, e2, hb, locate_pre a p _ pre post b hl, hf.symm⟩

theorem coalesceLoop_length (a : Arch) (l : List Block) :
    (coalesceLoop a l).1.length + (coalesceLoop a l).2 = l.length := by
  induction l using coalesceLoop.induct a with
  | case1 => simp [coalesceLoop]
  | case2 b => simp [coalesceLoop]
  | case3 b n rest hc ih =>
    simp only [coalesceLoop, hc, if_true, List.length_cons]
    omega
  | case4 b n rest hc ih =>
    have e : coalesceLoop a (b :: n :: rest)
        = (b :: (coalesceLoop a (n :: rest)).1, (coalesceLoop a (n :: rest)).2) := by
      simp [coalesceLoop, hc]
    rw [e]
    simp only [List.length_cons] at ih ⊢
    omega

/-! ## `realloc`, `calloc` and the growth -/

theorem realloc_inv (a : Arch) (fit : Fit) (h : Heap) (ptr : Option Nat) (size : Nat)
    (p : Option Nat) (h1 : Heap) (hr : realloc a fit h ptr size = .ok (p, h1)) :
    malloc a fit h size = .ok (p, h1) := by
  unfold realloc at hr
  cases hm : malloc a fit h size with
  | error e => simp [hm] at hr
  | ok r =>
    obtain ⟨q, h2⟩ := r
    simp only [hm] at hr
    split at hr
    · exact hr
    · split at hr
      · split at hr
        · exact hr
        · cases hr
      · cases hr

theorem calloc_inv (a : Arch) (fit : Fit) (h : Heap) (nmemb size : Nat)
    (p : Option Nat) (h1 : Heap) (hr : calloc a fit h nmemb size = .ok (p, h1)) :
    malloc a fit h ((nmemb * size) % a.modulus) = .ok (p, h1) := by
  unfold calloc at hr
  cases hm : malloc a fit h ((nmemb * size) % a.modulus) with
  | error e => simp [hm] at hr
  | ok r =>
    obtain ⟨q, h2⟩ := r
    simp only [hm] at hr
    split at hr
    · exact hr
    · split at hr
      · split at hr
        · exact hr
        · cases hr
      · cases hr

/-- The chain after a growth that `malloc` asked for: the new block stands
behind all blocks that were there. -/
theorem grow_link (a : Arch) (fit : Fit) (chain : List Block) (size : Nat) (last : Option Nat)
    (blk : Block) :
    findFreeBlock a fit chain (if chain.isEmpty then none else some 0) size = (none, last) →
    (match last with
      | some i => chain.take (i + 1) ++ [blk]
      | none => if chain.isEmpty then [blk] else chain) = chain ++ [blk] := by
  intro hfind
  by_cases hne : chain = []
  · subst hne
    have := (findFreeBlock_nil a fit none size).1
    simp only [List.isEmpty_nil, if_true] at hfind
    rw [this] at hfind
    injection hfind with _ h2
    subst h2
    simp
  · have hlast := findFreeBlock_last_malloc a fit chain size hne (by rw [hfind])
    rw [hfind] at hlast
    simp only at hlast
    subst hlast
    have hpos := List.length_pos.2 hne
    have : chain.length - 1 + 1 = chain.length := by omega
    simp only [this, List.take_length]

/-! ## Sizes and the number four -/

theorem ALIGN4_mod4 (a : Arch) (hw : 2 ≤ a.w) (s : Nat) : ALIGN4 a s % 4 = 0 := by
  have hd : 4 ∣ a.modulus := Nat.dvd_of_mod_eq_zero (modulus_dvd4 a hw)
  unfold ALIGN4
  rw [shift_round, Nat.mod_mod_of_dvd _ hd]
  have := Nat.mod_mod_of_dvd ((s + a.modulus - 1) % a.modulus / 4 * 4) hd
  omega

theorem toInt32_mod4 (x : Int) : toInt32 x % 4 = x % 4 := by
  unfold toInt32
  omega

theorem mod4_core (M y : Int) (bs s hdr : Nat) (hd : (4 : Int) ∣ M)
    (h1 : y % 4 = (bs : Int) % 4) (hb : bs % 4 = 0) (hs : s % 4 = 0) (hh : hdr % 4 = 0) :
    ((y - (s : Int) - (hdr : Int)) % M).toNat % 4 = 0 := by
  have h2 := Int.emod_emod_of_dvd (y - (s : Int) - (hdr : Int)) hd
  have h4 : (y - (s : Int) - (hdr : Int)) % 4 = 0 := by omega
  rw [h4] at h2
  generalize (y - (s : Int) - (hdr : Int)) % M = z at h2 ⊢
  omega

theorem splitBlock_mod4 (a : Arch) (hw : 2 ≤ a.w) (hh : a.hdr % 4 = 0) (b : Block) (s : Nat)
    (hb : b.size % 4 = 0) (hs : s % 4 = 0) : (splitBlock a b s).size % 4 = 0 := by
  have hd : (4 : Int) ∣ (a.modulus : Int) := by
    have := Nat.dvd_of_mod_eq_zero (modulus_dvd4 a hw)
    exact_mod_cast this
  simp only [splitBlock, toSizeT]
  exact mod4_core (a.modulus : Int) (toInt32 (b.size : Int)) b.size s a.hdr hd
    (toInt32_mod4 (b.size : Int)) hb hs hh

theorem coalesceLoop_mod4 (a : Arch) (hw : 2 ≤ a.w) (hh : a.hdr % 4 = 0) (l : List Block)
    (hl : ∀ b ∈ l, b.size % 4 = 0) : ∀ b ∈ (coalesceLoop a l).1, b.size % 4 = 0 := by
  have hd : 4 ∣ a.modulus := Nat.dvd_of_mod_eq_zero (modulus_dvd4 a hw)
  induction l using coalesceLoop.induct a with
  | case1 => simp [coalesceLoop]
  | case2 b => simpa [coalesceLoop] using hl
  | case3 b n rest hc ih =>
    simp only [coalesceLoop, hc, if_true]
    intro c hcm
    rcases List.mem_cons.1 hcm with hcm | hcm
    · subst hcm
      have h1 := hl b (by simp)
      have h2 := hl n (by simp)
      have := Nat.mod_mod_of_dvd (b.size + n.size + a.hdr) hd
      simp only
      omega
    · exact ih (fun d hd2 => hl d (by simp [hd2])) c hcm
  | case4 b n rest hc ih =>
    have e : coalesceLoop a (b :: n :: rest)
        = (b :: (coalesceLoop a (n :: rest)).1, (coalesceLoop a (n :: rest)).2) := by
      simp [coalesceLoop, hc]
    rw [e]
    intro c hcm
    rcases List.mem_cons.1 hcm with hcm | hcm
    · subst hcm; exact hl c (by simp)
    · exact ih (fun d hd2 => hl d (List.mem_cons_of_mem _ hd2)) c hcm

/-! ## Single facts about the split, the growth and the counters -/

theorem toInt32_small (x : Int) (h0 : 0 ≤ x) (h1 : x < 2 ^ 31) : toInt32 x = x := by
  unfold toInt32
  omega

/-- Below the range of `int` the split computes the remainder exactly: a
selected block `b` with `b.size < 2 ^ 31` and more than `s + hdr` bytes gets a
remainder of `b.size - s - hdr` bytes, which is positive. -/
theorem splitBlock_size_small (a : Arch) (hw : 32 ≤ a.w) (b : Block) (s : Nat)
    (hb : b.size < 2 ^ 31) (hs : s + a.hdr < b.size) :
    (splitBlock a b s).size = b.size - s - a.hdr ∧ 0 < (splitBlock a b s).size := by
  have hM := modulus_ge a hw
  have e1 : toInt32 (b.size : Int) = (b.size : Int) :=
    toInt32_small _ (by omega) (by exact_mod_cast hb)
  have e2 : ((b.size : Int) - (s : Int) - (a.hdr : Int)) % (a.modulus : Int)
      = (b.size : Int) - (s : Int) - (a.hdr : Int) :=
    Int.emod_eq_of_lt (by omega) (by omega)
  have e3 : (splitBlock a b s).size = b.size - s - a.hdr := by
    simp only [splitBlock, toSizeT, e1, e2]
    omega
  exact ⟨e3, by omega⟩

/-- When `sbrk` refuses the request, `growHeap` stops at `assert(curr == prev)`:
`curr` is the break and `prev` is `(void *) -1`. -/
theorem growHeap_refused (a : Arch) (h : Heap) (last : Option Nat) (size : Nat)
    (hr : (sbrk a h (toSigned a ((a.hdr + size) % a.modulus))).1 = a.modulus - 1)
    (hb : h.brk ≠ a.modulus - 1) :
    growHeap a h last size = .error .assertFailed := by
  unfold growHeap
  simp only [sbrk_zero, hr, ne_eq, hb, not_false_eq_true, if_true]

/-- Every call of `malloc` that returns a pointer adds one to `num_reuses`,
whether the block was found by the scan or came from `growHeap`. -/
theorem malloc_counts_reuse (a : Arch) (fit : Fit) (h : Heap) (n p : Nat) (h1 : Heap)
    (hm : malloc a fit h n = .ok (some p, h1)) : h1.num_reuses = h.num_reuses + 1 := by
  obtain ⟨_, _, _, _, hcases⟩ := malloc_inv a fit h n (some p) h1 hm
  rcases hcases with ⟨_, hp, _⟩ | ⟨_, i, last, b, _, _, _, e, _⟩ | ⟨_, last, _, _, _, _, _, hc⟩
  · cases hp
  · exact e
  · rcases hc with ⟨hp, _⟩ | ⟨_, _, e, _⟩
    · cases hp
    · exact e

/-! ## Alignment -/

/-- C11: for every size `s` with `1 <= s <= 2 ^ w - 4`, `ALIGN4(s)` is a multiple
of 4, is at least `s`, and is at most every multiple of 4 that is at least `s`;
where the sizes 10 and 20 lie in that range, `ALIGN4(10) = 12` and
`ALIGN4(20) = 20`. -/
theorem ALIGN4_least_multiple (a : Arch) (s : Nat) (h1 : 1 ≤ s) (h2 : s ≤ a.modulus - 4) :
    ALIGN4 a s % 4 = 0 ∧ s ≤ ALIGN4 a s ∧ (∀ m, m % 4 = 0 → s ≤ m → ALIGN4 a s ≤ m) ∧
      (10 ≤ a.modulus - 4 → ALIGN4 a 10 = 12) ∧ (20 ≤ a.modulus - 4 → ALIGN4 a 20 = 20) := by
  have e := ALIGN4_eq a s h1 (by omega)
  refine ⟨by omega, by omega, fun m hm hs => by omega, fun h => ?_, fun h => ?_⟩
  · rw [ALIGN4_eq a 10 (by omega) (by omega)]
  · rw [ALIGN4_eq a 20 (by omega) (by omega)]

/-- The statement of C11 on LP64 at the size 10. -/
theorem ALIGN4_least_multiple_witness :
    1 ≤ 10 ∧ 10 ≤ lp64.modulus - 4 ∧
    (ALIGN4 lp64 10 % 4 = 0 ∧ 10 ≤ ALIGN4 lp64 10 ∧
      (∀ m, m % 4 = 0 → 10 ≤ m → ALIGN4 lp64 10 ≤ m) ∧
      (10 ≤ lp64.modulus - 4 → ALIGN4 lp64 10 = 12) ∧
      (20 ≤ lp64.modulus - 4 → ALIGN4 lp64 20 = 20)) :=
  ⟨by decide, by decide, ALIGN4_least_multiple lp64 10 (by decide) (by decide)⟩

/-! ## Growth that the operating system refuses -/

/-- C12, the code at the failing input (LP64, first fit): with the break at 4096
and no room for 132 more bytes, `malloc(100)` does not return `NULL`: `sbrk`
returns `(void *) -1`, `assert(curr == prev)` compares the break with it and
aborts.  The same happens to a second `malloc(100)` behind a block that
exists (limit 4300), where the first call alone returns 4128. -/
theorem growth_refused_aborts :
    malloc lp64 .first (Heap.empty 4096 4100) 100 = .error .assertFailed ∧
    observe (run lp64 .first (Heap.empty 4096 4300) [.malloc 100, .malloc 100]) = none ∧
    observe (run lp64 .first (Heap.empty 4096 4300) [.malloc 100])
      = some ([some 4128], [⟨4096, 100, false⟩]) := by
  refine ⟨rfl, by decide, by decide⟩

/-! ## The assertion of `free` -/

/-- C13: let `p` be the data pointer of the block `b` of the chain.  If `b` is
marked free, `free(p)` ends in the failed assertion `assert(curr->free == 0)`,
which stands before every store of the function, so that no flag, counter or
link is changed and nothing is merged; and `free(p)` returns exactly when `b`
is marked used. -/
theorem release_asserts_block_used (a : Arch) (h : Heap) (p : Nat) (pre post : List Block)
    (b : Block) (hl : locate a p h.heapList = some (pre, b, post)) :
    (b.free = true → free a h (some p) = .error .assertFailed) ∧
      ((∃ h1, free a h (some p) = .ok h1) ↔ b.free = false) := by
  refine ⟨fun hb => by simp [free, hl, hb], ?_, fun hb => ⟨_, free_ok a h p pre post b hl hb⟩⟩
  rintro ⟨h1, e⟩
  cases hb : b.free
  · rfl
  · simp [free, hl, hb] at e

/-- The statement of C13 on LP64 at the free block at the end of `fiveBlocks`. -/
theorem release_asserts_block_used_witness :
    locate lp64 4296 fiveBlocks.heapList
      = some ([⟨4096, 8, false⟩, ⟨4136, 8, false⟩, ⟨4176, 16, false⟩, ⟨4224, 8, false⟩],
          ⟨4264, 8, true⟩, []) ∧
    ((Block.free ⟨4264, 8, true⟩ = true →
        free lp64 fiveBlocks (some 4296) = .error .assertFailed) ∧
      ((∃ h1, free lp64 fiveBlocks (some 4296) = .ok h1) ↔
        Block.free ⟨4264, 8, true⟩ = false)) :=
  ⟨by decide, release_asserts_block_used lp64 fiveBlocks 4296
    [⟨4096, 8, false⟩, ⟨4136, 8, false⟩, ⟨4176, 16, false⟩, ⟨4224, 8, false⟩] []
    ⟨4264, 8, true⟩ (by decide)⟩

/-! ## The split -/

/-- C14, the code at the failing input (LP64, first fit): the block at 4096 is
free with size `2 ^ 32 + 40`.  `malloc(8)` selects it, the test
`next->size - size > sizeof(struct _block)` holds, and the split stores the
size in `int old_size`, which keeps the low 32 bits, 40: the remainder at 4136
gets size `40 - 8 - 32 = 0`. -/
theorem split_remainder_can_be_empty :
    observe (run lp64 .first (Heap.empty 4096 (2 ^ 40))
        [.malloc (2 ^ 32 + 40), .free (some 4128)])
      = some ([some 4128, none], [⟨4096, 2 ^ 32 + 40, true⟩]) ∧
    (2 ^ 32 + 40 + lp64.modulus - ALIGN4 lp64 8) % lp64.modulus > lp64.hdr ∧
    toInt32 (2 ^ 32 + 40) = 40 ∧
    observe (run lp64 .first (Heap.empty 4096 (2 ^ 40))
        [.malloc (2 ^ 32 + 40), .free (some 4128), .malloc 8])
      = some ([some 4128, none, some 4128],
          [⟨4096, 2 ^ 32 + 40, false⟩, ⟨4136, 0, true⟩]) := by
  decide

/-- C16, the code at the failing input (LP64, first fit): the block at 4096 is
free with size 100 and `malloc(8)` selects it; `100 - 8 > 32`, so the block is
split.  The new free block at 4136 has size `100 - 8 - 32 = 60` and is linked
right behind the selected block, but the selected block still has size 100,
not the aligned request 8: the split never stores into `next->size`. -/
theorem split_leaves_selected_size :
    observe (run lp64 .first (Heap.empty 4096 1048576)
        [.malloc 100, .free (some 4128)])
      = some ([some 4128, none], [⟨4096, 100, true⟩]) ∧
    observe (run lp64 .first (Heap.empty 4096 1048576)
        [.malloc 100, .free (some 4128), .malloc 8])
      = some ([some 4128, none, some 4128], [⟨4096, 100, false⟩, ⟨4136, 60, true⟩]) ∧
    ALIGN4 lp64 8 = 8 ∧ (100 : Nat) ≠ ALIGN4 lp64 8 := by
  decide

/-! ## Sizes in reachable states -/

/-- C15, the code at the failing input (LP64, first fit, empty heap with the
break at 4096).  After `malloc(100)`, `free`, `malloc(32)`, `malloc(36)`,
`free(4128)` the chain holds the free block at 4096, whose `size` is still 100
after its split, and the used block at 4160 with `size` 36; their headers lie
apart.  `malloc(8)` selects the block at 4096 and splits it again.  The new
header lies at 4136; its bytes `[4136, 4168)` reach into the header at 4160,
and its field `free`, at 4136 + 24, is the first byte of the field `size` of
the header at 4160.  The store `next->next->free = 1` makes the 36 there a 1,
which is no multiple of 4. -/
theorem split_flag_lands_on_linked_size :
    observe (run lp64 .first (Heap.empty 4096 1048576)
        [.malloc 100, .free (some 4128), .malloc 32, .malloc 36, .free (some 4128)])
      = some ([some 4128, none, some 4128, some 4192, none],
          [⟨4096, 100, true⟩, ⟨4160, 36, false⟩]) ∧
    HeadersApart lp64 [⟨4096, 100, true⟩, ⟨4160, 36, false⟩] ∧
    (findFreeBlock lp64 .first [⟨4096, 100, true⟩, ⟨4160, 36, false⟩] (some 0)
      (ALIGN4 lp64 8)).1 = some 0 ∧
    (100 + lp64.modulus - ALIGN4 lp64 8) % lp64.modulus > lp64.hdr ∧
    splitBlock lp64 ⟨4096, 100, true⟩ (ALIGN4 lp64 8) = ⟨4136, 60, true⟩ ∧
    ¬ HeadersApart lp64 [⟨4136, 60, true⟩, ⟨4160, 36, false⟩] ∧
    4136 + freeOffset lp64 = 4160 ∧
    storeByte 36 0 1 = 1 ∧ storeByte 36 0 1 % 4 ≠ 0 := by
  decide

/-! ## The loop of `free` -/

/-- On a chain whose headers occupy pairwise disjoint bytes below the break, a
call of `malloc` whose scan finds nothing and which returns a pointer, with
the break moved past the new header, has appended one block behind the former
tail: it lies at the old break, has the aligned request as size and is marked
used, the pointer returned is its data address, and the blocks that were there
are unchanged and in their order.  The headers of the new chain lie apart and
below the new break again. -/
theorem grow_appends_on_intact_chain (a : Arch) (fit : Fit) (h : Heap) (n p : Nat) (h1 : Heap)
    (hap : HeadersApart a h.heapList)
    (hbelow : ∀ b ∈ h.heapList, b.addr + a.hdr ≤ h.brk)
    (hnone : (findFreeBlock a fit h.heapList (if h.heapList.isEmpty then none else some 0)
      (ALIGN4 a n)).1 = none)
    (hm : malloc a fit h n = .ok (some p, h1))
    (hnew : h.brk + a.hdr ≤ h1.brk) :
    p = BLOCK_DATA a ⟨h.brk, ALIGN4 a n, false⟩ ∧
      h1.heapList = h.heapList ++ [⟨h.brk, ALIGN4 a n, false⟩] ∧
      HeadersApart a h1.heapList ∧ ∀ b ∈ h1.heapList, b.addr + a.hdr ≤ h1.brk := by
  have key : p = BLOCK_DATA a ⟨h.brk, ALIGN4 a n, false⟩ ∧
      h1.heapList = h.heapList ++ [⟨h.brk, ALIGN4 a n, false⟩] := by
    obtain ⟨_, _, _, _, hcases⟩ := malloc_inv a fit h n (some p) h1 hm
    rcases hcases with
      ⟨_, hp, _⟩ | ⟨_, i, last, b, hfind, _⟩ | ⟨_, last, hfind, _, _, _, _, hcase⟩
    · cases hp
    · rw [hfind] at hnone; cases hnone
    · rcases hcase with ⟨hp, _⟩ | ⟨hp, _, _, e1⟩
      · cases hp
      · injection hp with hp
        exact ⟨hp, by rw [e1, grow_link a fit h.heapList (ALIGN4 a n) last _ hfind]⟩
  refine ⟨key.1, key.2, ?_, ?_⟩
  · rw [key.2]
    unfold HeadersApart at hap ⊢
    rw [List.pairwise_append]
    refine ⟨hap, List.pairwise_singleton _ _, ?_⟩
    intro b hb c hc
    simp only [List.mem_singleton] at hc
    subst hc
    exact Or.inl (hbelow b hb)
  · rw [key.2]
    intro b hb
    rcases List.mem_append.1 hb with hb | hb
    · have := hbelow b hb
      omega
    · simp only [List.mem_singleton] at hb
      subst hb
      exact hnew

/-- C18, the code at the failing input (LP64, first fit, empty heap with the
break at 4096).  After `malloc(100)`, `free`, `malloc(8)`, `free(4128)`,
`malloc(108)` the break is still at 4228 and the chain holds the used block at
4096 with `size` 192 and, split off it, the free block of 52 bytes whose
header lies at 4236, past the break.  `malloc(56)` finds no block; the scan
leaves `*last` at the tail, the block at 4236.  `growHeap` puts the new header
at the break, 4228, so that its bytes `[4228, 4260)` reach into the header
at 4236: the field `free` of the new header, at 4228 + 24, is the first byte
of the field `next` of the tail, at 4236 + 16.  After `last->next = curr` has
stored 4228 there, `curr->free = false` clears that byte and leaves 4096, the
address of the head, in the `next` of the tail. -/
theorem growth_flag_lands_on_tail_link :
    observe (run lp64 .first (Heap.empty 4096 1048576)
        [.malloc 100, .free (some 4128), .malloc 8, .free (some 4128), .malloc 108])
      = some ([some 4128, none, some 4128, none, some 4128],
          [⟨4096, 192, false⟩, ⟨4236, 52, true⟩]) ∧
    (∃ ps h, run lp64 .first (Heap.empty 4096 1048576)
        [.malloc 100, .free (some 4128), .malloc 8, .free (some 4128), .malloc 108]
          = .ok (ps, h) ∧ h.brk = 4228 ∧ (sbrk lp64 h 0).1 = 4228) ∧
    findFreeBlock lp64 .first [⟨4096, 192, false⟩, ⟨4236, 52, true⟩] (some 0) (ALIGN4 lp64 56)
      = (none, some 1) ∧
    ¬ HeadersApart lp64 [⟨4228, ALIGN4 lp64 56, false⟩, ⟨4236, 52, true⟩] ∧
    4228 + freeOffset lp64 = 4236 + nextOffset lp64 ∧
    storeByte 4228 0 0 = 4096 :=
  ⟨by decide, ⟨_, _, rfl, rfl, rfl⟩, by decide, by decide, by decide, by decide⟩

/-! ## The counters -/

/-- C19, the code at the failing input (LP64, first fit, empty heap with the
break at 4096).  After `malloc(100)`, `free`, `malloc(8)`, `malloc(40)`,
`free(4128)` the chain holds the free block at 4096, whose `size` is still 100
after its split, and the used block at 4136; `num_blocks` is 2.  `malloc(8)`
selects the block at 4096 and splits it again, and the header it writes lies
at 4136, the address of the block that is already linked there: no new header
comes into being, the chain still runs through the headers at 4096 and 4136
only, and the call returns with `num_splits` 2 and `num_blocks` 3. -/
theorem split_header_lands_on_linked_block :
    observe (run lp64 .first (Heap.empty 4096 1048576)
        [.malloc 100, .free (some 4128), .malloc 8, .malloc 40, .free (some 4128)])
      = some ([some 4128, none, some 4128, some 4168, none],
          [⟨4096, 100, true⟩, ⟨4136, 60, false⟩]) ∧
    (∃ ps h, run lp64 .first (Heap.empty 4096 1048576)
        [.malloc 100, .free (some 4128), .malloc 8, .malloc 40, .free (some 4128)]
          = .ok (ps, h) ∧ h.num_blocks = 2) ∧
    (findFreeBlock lp64 .first [⟨4096, 100, true⟩, ⟨4136, 60, false⟩] (some 0)
      (ALIGN4 lp64 8)).1 = some 0 ∧
    (100 + lp64.modulus - ALIGN4 lp64 8) % lp64.modulus > lp64.hdr ∧
    (splitBlock lp64 ⟨4096, 100, true⟩ (ALIGN4 lp64 8)).addr = 4136 ∧
    (splitBlock lp64 ⟨4096, 100, true⟩ (ALIGN4 lp64 8)).addr
      ∈ List.map Block.addr [⟨4096, 100, true⟩, ⟨4136, 60, false⟩] ∧
    (∃ ps h, run lp64 .first (Heap.empty 4096 1048576)
        [.malloc 100, .free (some 4128), .malloc 8, .malloc 40, .free (some 4128), .malloc 8]
          = .ok (ps, h) ∧ ps = [some 4128, none, some 4128, some 4168, none, some 4128] ∧
        h.num_splits = 2 ∧ h.num_blocks = 3) :=
  ⟨by decide, ⟨_, _, rfl, rfl⟩, by decide, by decide, by decide, by decide,
    ⟨_, _, rfl, rfl, rfl, rfl⟩⟩

/-- C20, the code at the failing input (LP64, first fit): the first call
`malloc(10)` on the empty heap is served by `growHeap` and adds one to
`num_grows`, and `num_reuses` is 1 after it, not 0: `num_reuses++` stands in
the `else` of the last `NULL` test, which every call that returns a block
passes. -/
theorem growth_counts_as_reuse :
    ∃ h : Heap, malloc lp64 .first (Heap.empty 4096 1048576) 10 = .ok (some 4128, h) ∧
      h.heapList = [⟨4096, 12, false⟩] ∧ h.num_grows = 1 ∧ h.num_reuses = 1 :=
  ⟨_, rfl, rfl, rfl, rfl⟩

end HeapAssignment
